import Mathlib

/-!
Verification of the parsing-engine adapter and kernel-installer utilities of
the coconut repository (src/coconut/_pyparsing.py and src/coconut/util.py).

Modelling conventions:
* Python version tuples of non-negative integers are `List Nat`, compared with
  Python's lexicographic tuple order (`verLt`).
* Python strings are modelled as Lean `String` where only concatenation
  matters (messages), and as `List Nat` of character codes where the claims
  need character-level reasoning (version-string parsing).
* Machine floats that hold measured times are modelled as `Rat`.
* Fallible operations return `Except`; mutable module state is passed
  explicitly.
-/

namespace Coconut

/-! ## Version tuples (src/coconut/util.py and the version gate) -/

/-- Python lexicographic comparison `a < b` on tuples of non-negative ints. -/
def verLt : List Nat → List Nat → Bool
  | [], [] => false
  | [], _ :: _ => true
  | _ :: _, [] => false
  | a :: as, b :: bs => decide (a < b) || (decide (a = b) && verLt as bs)

/-- Python `a >= b` on version tuples, i.e. the negation of `a < b`. -/
def verGe (a b : List Nat) : Bool := !(verLt a b)

/-- Decimal digit character code of `d` (Python `str` of a digit). -/
def digitCode (d : Nat) : Nat := 48 + d

/-- Character codes of Python `str(n)` for a non-negative int `n`. -/
def natDigits (n : Nat) : List Nat :=
  if _h : n < 10 then [digitCode n]
  else natDigits (n / 10) ++ [digitCode (n % 10)]
  decreasing_by
    exact Nat.div_lt_self (by omega) (by omega)

/-- Join character-code strings with the code of the dot, 46
(Python `".".join`). -/
def joinDotCodes : List (List Nat) → List Nat
  | [] => []
  | [x] => x
  | x :: y :: rest => x ++ 46 :: joinDotCodes (y :: rest)

/-- `ver_tuple_to_str` from src/coconut/util.py, on tuples of non-negative
ints, with strings as character-code lists: `".".join(str(x) for x in t)`. -/
def ver_tuple_to_str (t : List Nat) : List Nat := joinDotCodes (t.map natDigits)

/-- A component of a parsed version tuple: Python leaves a component that
`int` cannot parse as a string. -/
inductive VerPart where
  | num : Nat → VerPart
  | str : List Nat → VerPart
deriving DecidableEq

/-- Whether a character code is a decimal digit. -/
def isDigitCode (c : Nat) : Bool := decide (48 ≤ c) && decide (c ≤ 57)

/-- Value of a big-endian digit-code string. -/
def parseNatCodes (l : List Nat) : Nat := l.foldl (fun a c => 10 * a + (c - 48)) 0

/-- Python `int(x)` applied to one version component, modelled for the
unsigned decimal components that version strings contain: a non-empty
all-digit component parses, anything else is kept as a string. -/
def tryInt (s : List Nat) : VerPart :=
  if s ≠ [] ∧ s.all isDigitCode then .num (parseNatCodes s) else .str s

/-- Python `s.split(".")` on character-code strings. -/
def splitDotCodes : List Nat → List (List Nat)
  | [] => [[]]
  | c :: rest =>
    if c = 46 then [] :: splitDotCodes rest
    else
      match splitDotCodes rest with
      | [] => [[c]]
      | g :: gs => (c :: g) :: gs

/-- `ver_str_to_tuple` from src/coconut/util.py: split on dots and parse each
component with `int` where possible. -/
def ver_str_to_tuple (s : List Nat) : List VerPart := (splitDotCodes s).map tryInt

/-- `get_next_version` from src/coconut/util.py with the default
`point_to_increment=-1`: increment the last component and drop what follows. -/
def get_next_version (req_ver : List Nat) : List Nat :=
  req_ver.dropLast ++ [req_ver.getLast! + 1]

/-! ## The version gate of src/coconut/_pyparsing.py (lines 90-116) -/

/-- Rendering of a version tuple for messages (Lean `String` side). -/
def verTupleToString (t : List Nat) : String :=
  String.intercalate "." (t.map toString)

/-- The remediation command of the too-old error message. -/
def pip_upgrade_cmd (python pkg : String) : String :=
  python ++ " -m pip install --upgrade " ++ pkg

/-- The `"; got " + PYPARSING_INFO` fragment, empty when no engine imported. -/
def gotInfo : Option String → String
  | some i => "; got " ++ i
  | none => ""

/-- The fatal too-old / no-engine message of lines 97-102. -/
def tooOldMsg (min_ver : List Nat) (python pkg : String) (info : Option String) : String :=
  "This version of Coconut requires pyparsing/cPyparsing version >= "
    ++ verTupleToString min_ver ++ gotInfo info
    ++ " (run '" ++ pip_upgrade_cmd python pkg ++ "' to fix)"

/-- The non-fatal too-new warning of lines 103-108. -/
def tooNewWarning (max_ver : List Nat) (python pkg : String) (info : Option String) : String :=
  "This version of Coconut was built for pyparsing/cPyparsing versions < "
    ++ verTupleToString max_ver ++ gotInfo info
    ++ " (run '" ++ python ++ " -m pip install " ++ pkg ++ "<"
    ++ verTupleToString max_ver ++ "' to fix)"

/-- The pyparsing-v3 warning of lines 112-116. -/
def modernWarning (max_ver : List Nat) (python : String) : String :=
  "This version of Coconut is not built for pyparsing v3; some syntax features WILL NOT WORK"
    ++ " (run either '" ++ python ++ " -m pip install cPyparsing<" ++ verTupleToString max_ver
    ++ "' or '" ++ python ++ " -m pip install pyparsing<" ++ verTupleToString max_ver
    ++ "' to fix)"

/-- The version gate of src/coconut/_pyparsing.py lines 97-116: a fatal
`ImportError` when no engine imported or the version is below `min_ver`;
otherwise the list of warnings emitted, in order, and the final value of
`MODERN_PYPARSING` (`cur_ver >= (3,)`). -/
def version_gate (cur_ver : Option (List Nat)) (min_ver max_ver : List Nat)
    (python pkg : String) (info : Option String) : Except String (List String × Bool) :=
  match cur_ver with
  | none => .error (tooOldMsg min_ver python pkg info)
  | some v =>
    if verLt v min_ver then .error (tooOldMsg min_ver python pkg info)
    else
      let compat_warns := if verGe v max_ver then [tooNewWarning max_ver python pkg info] else []
      let modern := verGe v [3]
      let modern_warns := if modern then [modernWarning max_ver python] else []
      .ok (compat_warns ++ modern_warns, modern)

/-! ## Packrat cache override (src/coconut/_pyparsing.py lines 125-150) -/

/-- First-match association lookup (the cache's `get`, `shutil` file maps). -/
def assocGet {K V : Type} [DecidableEq K] (k : K) : List (K × V) → Option V
  | [] => none
  | (k2, v) :: rest => if k2 = k then some v else assocGet k rest

/-- The 6-tuple `lookup` key of `_parseCache`:
`(self, instring, loc, callPreParse, doActions, tuple(self.packrat_context))`.
Parser elements are identified by a number, strings by their text. -/
structure PackratKey where
  elem : Nat
  instring : String
  loc : Nat
  callPreParse : Bool
  doActions : Bool
  packrat_context : List Nat
deriving DecidableEq

/-- A recoverable `ParseBaseException`: its class, its `args`, and the
traceback attached to it (`none` when it has never been raised). -/
structure ParseExc where
  cls : Nat
  args : List Nat
  traceback : Option Nat
deriving DecidableEq

/-- `pe.__class__(*pe.args)`: a fresh exception of the same class with the
same args and no traceback. -/
def exc_copy (e : ParseExc) : ParseExc := ⟨e.cls, e.args, none⟩

/-- A successful `_parseNoCache` result `(loc, tokens)`; `tokens.copy()` is a
shallow copy, which on this value model is the tokens themselves. -/
abbrev ParseVal := Nat × List Nat

/-- Shallow `ParseResults.copy()`: equal tokens. -/
def toks_copy (t : List Nat) : List Nat := t

/-- The mutable packrat state: the cache entries (`ParserElement.packrat_cache`),
the hit/miss statistics, and a counter of `_parseNoCache` invocations used to
observe how often the real parse runs. -/
structure PackratState where
  entries : List (PackratKey × Except ParseExc ParseVal)
  hit_count : Nat
  miss_count : Nat
  parse_count : Nat

/-- `_parseCache` from src/coconut/_pyparsing.py lines 127-148, with the
underlying `_parseNoCache` supplied as a pure function: on a miss, run it once
and cache a copied success or a traceback-stripped copy of the exception; on a
hit, return the cached copy or re-raise the cached exception. -/
def parseCache (parseNoCache : PackratKey → Except ParseExc ParseVal)
    (k : PackratKey) (st : PackratState) : Except ParseExc ParseVal × PackratState :=
  match assocGet k st.entries with
  | none =>
    match parseNoCache k with
    | .error pe =>
      (.error pe,
        { st with
          entries := (k, .error (exc_copy pe)) :: st.entries
          miss_count := st.miss_count + 1
          parse_count := st.parse_count + 1 })
    | .ok value =>
      (.ok value,
        { st with
          entries := (k, .ok (value.1, toks_copy value.2)) :: st.entries
          miss_count := st.miss_count + 1
          parse_count := st.parse_count + 1 })
  | some cached =>
    match cached with
    | .error e => (.error e, { st with hit_count := st.hit_count + 1 })
    | .ok value => (.ok (value.1, toks_copy value.2), { st with hit_count := st.hit_count + 1 })

/-! ## Capability negotiation (src/coconut/_pyparsing.py lines 203-208) -/

/-- Which parsing strategies end up enabled on the engine. -/
structure EngineModes where
  left_recursion : Bool
  incremental : Bool
  packrat : Bool
deriving DecidableEq

/-- The `if/elif` chain of lines 203-208: left recursion when modern and
requested, else incremental when supported and requested, else packrat when
requested, else nothing. -/
def negotiate (modern use_left_recursion_if_available supports_incremental
    use_incremental_if_available use_packrat : Bool) : EngineModes :=
  if modern && use_left_recursion_if_available then ⟨true, false, false⟩
  else if supports_incremental && use_incremental_if_available then ⟨false, true, false⟩
  else if use_packrat then ⟨false, false, true⟩
  else ⟨false, false, false⟩

/-- How many modes an `EngineModes` value enables. -/
def EngineModes.count (m : EngineModes) : Nat :=
  (if m.left_recursion then 1 else 0) + (if m.incremental then 1 else 0)
    + (if m.packrat then 1 else 0)

/-! ## Dummy `enableIncremental` (src/coconut/_pyparsing.py lines 159-172) -/

/-- The dummy `enableIncremental` installed when the engine has no incremental
support (lines 166-172): it ignores its arguments and raises an `ImportError`
naming the upgrade. `cpyparsing_min_ver` stands for
`min_versions["cPyparsing"]` of coconut.constants (not under src/). -/
def enableIncremental (cpyparsing_min_ver : List Nat) (python : String)
    (_args : List Nat) (_kwargs : List (String × Nat)) : Except String Unit :=
  .error ("incremental parsing only supported on cPyparsing>="
    ++ verTupleToString cpyparsing_min_ver
    ++ " (run '" ++ python ++ " -m pip install --upgrade cPyparsing' to fix)")

/-! ## Fast reprs (src/coconut/_pyparsing.py lines 247-267)

The module namespace `vars(_pyparsing)` is a list of entries, `some cid` for a
parser-element class (identified by a number) and `none` for any other object,
which the loop skips.  The `__repr__`/`__str__` functions currently installed
on each class form a map `Nat → R × R`; the registry `_old_pyparsing_reprs`
is the recorded list of `(class, (repr, str))` pairs. -/

/-- Pointwise update of the class-function map (setting `obj.__repr__`). -/
def updFn {α : Type} (f : Nat → α) (c : Nat) (v : α) : Nat → α :=
  fun x => if x = c then v else f x

/-- `set_fast_pyparsing_reprs`: walk the namespace in order; for every
parser-element class record its current `(__repr__, __str__)` pair in the
registry and install the fast repr for both.  Returns the updated class map
and registry. -/
def runSetFast {R : Type} (fastF : Nat → R) :
    List (Option Nat) → (Nat → R × R) → List (Nat × (R × R)) →
    (Nat → R × R) × List (Nat × (R × R))
  | [], cs, reg => (cs, reg)
  | none :: rest, cs, reg => runSetFast fastF rest cs reg
  | some cid :: rest, cs, reg =>
    runSetFast fastF rest (updFn cs cid (fastF cid, fastF cid)) (reg ++ [(cid, cs cid)])

/-- `unset_fast_pyparsing_reprs`: restore every recorded pair in the order
recorded (the registry is then cleared, i.e. the new registry is `[]`). -/
def runUnset {R : Type} : List (Nat × (R × R)) → (Nat → R × R) → Nat → R × R
  | [], cs => cs
  | (cid, rs) :: rest, cs => runUnset rest (updFn cs cid rs)

/-! ## Profiled MatchFirst (src/coconut/_pyparsing.py lines 420-454) -/

/-- Outcome of `e._parse(instring, loc, doActions)` for one alternative:
success, a `ParseException` carrying its location and message, or an
`IndexError`. -/
inductive AltRes (V : Type) where
  | ok : V → AltRes V
  | perr : Nat → String → AltRes V
  | ierr : AltRes V
deriving DecidableEq

/-- One alternative of a `MatchFirst`: its parse outcome at the current
position and its `errmsg` attribute (used for the synthetic exception). -/
structure Alt (V : Type) where
  res : AltRes V
  errmsg : String
deriving DecidableEq

/-- Whether an alternative parses successfully. -/
def Alt.succeeds {V : Type} (a : Alt V) : Bool :=
  match a.res with
  | .ok _ => true
  | _ => false

/-- The per-`MatchFirst` statistics: `expr_usage_stats` and
`expr_timing_stats`. -/
structure MFState where
  expr_usage_stats : List Nat
  expr_timing_stats : List (List Rat)

/-- Append one timing sample to slot `i` (`self.expr_timing_stats[i].append`). -/
def MFState.addTiming (st : MFState) (i : Nat) (t : Rat) : MFState :=
  { st with expr_timing_stats := st.expr_timing_stats.set i ((st.expr_timing_stats.getD i []) ++ [t]) }

/-- Increment usage slot `i` (`self.expr_usage_stats[i] += 1`). -/
def MFState.addUsage (st : MFState) (i : Nat) : MFState :=
  { st with expr_usage_stats := st.expr_usage_stats.set i (st.expr_usage_stats.getD i 0 + 1) }

/-- The exception raised by the profiled `parseImpl`: its location, its final
message, and the alternative whose exception object is raised (`none` for the
generic no-alternatives error). -/
structure MFErr where
  eloc : Nat
  emsg : String
  origin : Option Nat
deriving DecidableEq

/-- The loop of `new_parseImpl` (lines 430-452).  `alts` pairs each remaining
alternative with the elapsed time its attempt is measured to take; `i` is its
index, `maxExcLoc` and `maxE` mirror the loop variables (`maxE` holds the
origin index and location of `maxException`).  On exhaustion the kept
exception is raised with its `msg` overwritten by `self.errmsg`, or the
generic error is raised when none was kept. -/
def mf_go {V : Type} (self_errmsg : String) (instring_len loc : Nat) :
    List (Alt V × Rat) → Nat → Int → Option (Nat × Nat) → MFState →
    Except MFErr V × MFState
  | [], _, _, none, st => (.error ⟨loc, "no defined alternatives to match", none⟩, st)
  | [], _, _, some (i0, l0), st => (.error ⟨l0, self_errmsg, some i0⟩, st)
  | (a, t) :: rest, i, maxExcLoc, maxE, st =>
    let st1 := st.addTiming i t
    match a.res with
    | .ok v => (.ok v, st1.addUsage i)
    | .perr l _ =>
      if (l : Int) > maxExcLoc then mf_go self_errmsg instring_len loc rest (i + 1) l (some (i, l)) st1
      else mf_go self_errmsg instring_len loc rest (i + 1) maxExcLoc maxE st1
    | .ierr =>
      if (instring_len : Int) > maxExcLoc then
        mf_go self_errmsg instring_len loc rest (i + 1) instring_len (some (i, instring_len)) st1
      else mf_go self_errmsg instring_len loc rest (i + 1) maxExcLoc maxE st1

/-- `new_parseImpl` (lines 423-452): on the first invocation for a given
`MatchFirst` the statistics are initialised to zeros and empty lists, then the
alternatives are tried in order starting from `maxExcLoc = -1` and no kept
exception. -/
def new_parseImpl {V : Type} (self_errmsg : String) (instring_len loc : Nat)
    (alts : List (Alt V × Rat)) (prior : Option MFState) : Except MFErr V × MFState :=
  let st0 := match prior with
    | none => ⟨List.replicate alts.length 0, List.replicate alts.length []⟩
    | some st => st
  mf_go self_errmsg instring_len loc alts 0 (-1) none st0

/-- The location an alternative's failure effectively reaches: a
`ParseException` keeps its own location, an `IndexError` is placed at the end
of the input. -/
def effLoc {V : Type} (instring_len : Nat) (a : Alt V) : Nat :=
  match a.res with
  | .perr l _ => l
  | _ => instring_len

/-! ## Choice-ordering analysis (src/coconut/_pyparsing.py lines 457-471) -/

/-- The inner accumulation of `time_for_ordering`: `acc` is the sum of the
timing averages already passed (Python's `sum(expr_timing_aves[:i + 1])`,
which stops growing when the averages run out). -/
def tfo_go (acc : Rat) : List Nat → List Rat → Rat
  | [], _ => 0
  | n :: ns, t :: ts => n * (acc + t) + tfo_go (acc + t) ns ts
  | n :: ns, [] => n * acc + tfo_go acc ns []

/-- `time_for_ordering` from src/coconut/_pyparsing.py lines 457-462. -/
def time_for_ordering (expr_usage_stats : List Nat) (expr_timing_aves : List Rat) : Rat :=
  tfo_go 0 expr_usage_stats expr_timing_aves

/-- Python descending comparison used by `sorted(zip(...), reverse=True)` on
`(usage, average)` pairs: `a` comes no later than `b`. -/
def pairGeB (a b : Nat × Rat) : Bool :=
  decide (b.1 < a.1) || (decide (a.1 = b.1) && decide (b.2 ≤ a.2))

/-- Descending insertion preserving the relative order of tied pairs. -/
def orderedInsertDesc (p : Nat × Rat) : List (Nat × Rat) → List (Nat × Rat)
  | [] => [p]
  | q :: l => if pairGeB p q then p :: q :: l else q :: orderedInsertDesc p l

/-- `sorted(..., reverse=True)` on `(usage, average)` pairs. -/
def sortPairsDesc : List (Nat × Rat) → List (Nat × Rat)
  | [] => []
  | p :: l => orderedInsertDesc p (sortPairsDesc l)

/-- `naive_timing_improvement` from src/coconut/_pyparsing.py lines 465-471:
the cost of the ordering sorted by descending usage minus the cost of the
recorded ordering. -/
def naive_timing_improvement (expr_usage_stats : List Nat) (expr_timing_aves : List Rat) : Rat :=
  let s := sortPairsDesc (expr_usage_stats.zip expr_timing_aves)
  time_for_ordering (s.map Prod.fst) (s.map Prod.snd)
    - time_for_ordering expr_usage_stats expr_timing_aves

/-! ## Jupyter kernel install (src/coconut/util.py lines 287-296, 387-436)

The filesystem is modelled by the set of directories that exist, a map from
file paths to their contents, and an oracle `writable` saying in which
directories modifications succeed (a denied modification raises `OSError`).
The content of `kernel.json` is kept structured (the fields of the JSON
object) rather than as serialised bytes. -/

/-- The parsed content of a `kernel.json` file. -/
structure KernelSpec where
  argv : List String
  display_name : String
  language : String
deriving DecidableEq

/-- `os.path.join(d, name)`. -/
def pathJoin (d name : String) : String := d ++ "/" ++ name

/-- The filesystem state. -/
structure KFS where
  dirs : List String
  files : List (String × KernelSpec)
  writable : String → Bool

/-- The `kernel_dict` written by `make_custom_kernel` (lines 425-429). -/
def kernel_json_of (executable : String) : KernelSpec :=
  ⟨[executable, "-m", "coconut.icoconut", "-f", "{connection_file}"], "Coconut", "coconut"⟩

/-- `make_custom_kernel` (lines 421-436): remove any previous kernel dir,
recreate it and write `kernel.json` into it; an `OSError` carries the
filesystem as mutated so far (here: unchanged, the first denied operation
fails). `icdir` stands for `icoconut_custom_kernel_dir`. -/
def make_custom_kernel (executable icdir : String) (fs : KFS) : Except KFS KFS :=
  if fs.writable icdir then
    .ok { fs with
      dirs := if icdir ∈ fs.dirs then fs.dirs else icdir :: fs.dirs
      files := (pathJoin icdir "kernel.json", kernel_json_of executable)
        :: fs.files.filter (fun pc => !(pc.1.startsWith (icdir ++ "/"))) }
  else .error fs

/-- `os.makedirs(d)`. -/
def mkdirFS (d : String) (fs : KFS) : Except KFS KFS :=
  if fs.writable d then .ok { fs with dirs := d :: fs.dirs } else .error fs

/-- `ensure_dir` (src/coconut/util.py lines 287-296): create the directory if
missing, swallowing `OSError` and reporting success as a Bool. -/
def ensure_dir (d : String) (fs : KFS) : KFS × Bool :=
  if d ∈ fs.dirs then (fs, true)
  else
    match mkdirFS d fs with
    | .ok fs2 => (fs2, true)
    | .error _ => (fs, false)

/-- `shutil.copy(src, dstdir)` where `src` is a `kernel.json` path: write the
source's content to `dstdir/kernel.json`, raising `OSError` when the source is
missing or the destination directory is missing or not writable. -/
def copyFS (src dstdir : String) (fs : KFS) : Except KFS KFS :=
  match assocGet src fs.files with
  | none => .error fs
  | some content =>
    if dstdir ∈ fs.dirs && fs.writable dstdir then
      .ok { fs with files := (pathJoin dstdir "kernel.json", content) :: fs.files }
    else .error fs

/-- The OS-specific remediation suffix of lines 407-410. -/
def os_perm_hint (windows : Bool) : String :=
  if windows then " (try again from a shell that is run as administrator)"
  else " (try again with 'sudo')"

/-- The warning emitted on an `OSError` (lines 396-411), chosen by whether a
kernel file already exists at the destination, with the OS-specific hint. -/
def install_failure_msg (kdest : String) (windows : Bool) (fs : KFS) : String :=
  (if (assocGet (pathJoin kdest "kernel.json") fs.files).isSome then
    "Failed to update Coconut Jupyter kernel installation; the 'coconut' kernel might not work properly as a result"
  else
    "Coconut Jupyter kernel installation failed due to above error")
    ++ os_perm_hint windows ++ "."

/-- `install_custom_kernel` (lines 387-418): make the kernel file, ensure the
destination directory and copy the file there; on success return the
destination, on `OSError` warn once and return `none`.  The result is
`(returned value, final filesystem, warnings emitted)`; `kdest` stands for the
computed `kernel_dest`. -/
def install_custom_kernel (executable icdir kdest : String) (windows : Bool)
    (fs : KFS) : Option String × KFS × List String :=
  match make_custom_kernel executable icdir fs with
  | .error fs1 => (none, fs1, [install_failure_msg kdest windows fs1])
  | .ok fs1 =>
    let fs2 := (ensure_dir kdest fs1).1
    match copyFS (pathJoin icdir "kernel.json") kdest fs2 with
    | .error fs3 => (none, fs3, [install_failure_msg kdest windows fs3])
    | .ok fs3 => (some kdest, fs3, [])

/-! ## Analysis auxiliaries (defined here, used by the theorems) -/

/-- The statistics invariant of the profiled `MatchFirst`: the two stat lists
stay parallel and each usage count is bounded by the number of timing samples
of the same slot. -/
def MFInv (st : MFState) : Prop :=
  st.expr_usage_stats.length = st.expr_timing_stats.length ∧
  ∀ i, st.expr_usage_stats.getD i 0 ≤ (st.expr_timing_stats.getD i []).length

/-- The pure max-tracking part of the `new_parseImpl` loop: fold the effective
failure locations, keeping the first strict maximum (as index and location)
together with `maxExcLoc`. -/
def runMax : Int → Option (Nat × Nat) → Nat → List Nat → Int × Option (Nat × Nat)
  | maxL, maxE, _, [] => (maxL, maxE)
  | maxL, maxE, i, x :: xs =>
    if (x : Int) > maxL then runMax x (some (i, x)) (i + 1) xs
    else runMax maxL maxE (i + 1) xs

/-- Sum of the usage components of zipped `(usage, average)` pairs, as the
rational it is multiplied with. -/
def sumFst (l : List (Nat × Rat)) : Rat := ((l.map Prod.fst).sum : Nat)

/-- The ordering cost of a list of `(usage, average)` pairs, written as
`Σ over j of average_j * (usage_j + usage of everything after j)`; this is the
same total as `time_for_ordering` on parallel lists (proved below), in a shape
suited to exchange arguments. -/
def sort_cost : List (Nat × Rat) → Rat
  | [] => 0
  | (n, t) :: rest => t * ((n : Rat) + sumFst rest) + sort_cost rest

/-! ## Theorems -/

/-- Claim C3: after capability negotiation, at most one parsing strategy is
active, and the chain follows strict priority: left recursion (modern and
requested) over incremental (supported and requested) over packrat
(requested); for every combination of flags exactly one or zero modes is
enabled, never two. -/
theorem claim_C3 :
    ∀ modern lr_req inc_sup inc_req pk_req : Bool,
      (negotiate modern lr_req inc_sup inc_req pk_req).count ≤ 1 ∧
      (negotiate modern lr_req inc_sup inc_req pk_req).left_recursion
        = (modern && lr_req) ∧
      (negotiate modern lr_req inc_sup inc_req pk_req).incremental
        = (!(modern && lr_req) && (inc_sup && inc_req)) ∧
      (negotiate modern lr_req inc_sup inc_req pk_req).packrat
        = (!(modern && lr_req) && !(inc_sup && inc_req) && pk_req) := by
  decide

/-- Claim C7: when the host engine lacks incremental support, the installed
`enableIncremental` raises, for any arguments, an error saying the feature is
only supported on newer cPyparsing and naming the upgrade command. -/
theorem claim_C7 (cpyparsing_min_ver : List Nat) (python : String)
    (args : List Nat) (kwargs : List (String × Nat)) :
    ∃ msg, enableIncremental cpyparsing_min_ver python args kwargs = .error msg ∧
      msg = "incremental parsing only supported on cPyparsing>="
        ++ verTupleToString cpyparsing_min_ver
        ++ " (run '" ++ python ++ " -m pip install --upgrade cPyparsing' to fix)" ∧
      ∃ s t, msg = s ++ "pip install --upgrade cPyparsing" ++ t := by
  refine ⟨_, rfl, rfl,
    "incremental parsing only supported on cPyparsing>="
      ++ verTupleToString cpyparsing_min_ver ++ " (run '" ++ python ++ " -m ",
    "' to fix)", ?_⟩
  simp only [String.append_assoc]
  rfl

/-- On a fresh key the cache stores the new entry at the front. -/
theorem assocGet_cons_self {K V : Type} [DecidableEq K] (k : K) (v : V)
    (l : List (K × V)) : assocGet k ((k, v) :: l) = some v := by
  simp [assocGet]

/-- Claim C2: the packrat cache keyed by the 6-tuple is a pure memoisation
with exception memoisation: a miss runs the underlying parse exactly once,
caching a shallow copy of a success or a traceback-stripped copy of a
recoverable parse exception, and a second invocation with the identical key
re-invokes nothing and returns an equal result, or raises an exception of the
same class with the same args. -/
theorem claim_C2 (parseNoCache : PackratKey → Except ParseExc ParseVal)
    (k : PackratKey) (st : PackratState)
    (hmiss : assocGet k st.entries = none) :
    (parseCache parseNoCache k st).2.parse_count = st.parse_count + 1 ∧
    (parseCache parseNoCache k (parseCache parseNoCache k st).2).2.parse_count
      = (parseCache parseNoCache k st).2.parse_count ∧
    (∀ v, parseNoCache k = .ok v →
      (parseCache parseNoCache k st).1 = .ok v ∧
      (parseCache parseNoCache k (parseCache parseNoCache k st).2).1 = .ok v ∧
      assocGet k (parseCache parseNoCache k st).2.entries
        = some (.ok (v.1, toks_copy v.2))) ∧
    (∀ e, parseNoCache k = .error e →
      (parseCache parseNoCache k st).1 = .error e ∧
      (parseCache parseNoCache k (parseCache parseNoCache k st).2).1
        = .error (exc_copy e) ∧
      (exc_copy e).cls = e.cls ∧ (exc_copy e).args = e.args ∧
      (exc_copy e).traceback = none ∧
      assocGet k (parseCache parseNoCache k st).2.entries
        = some (.error (exc_copy e))) := by
  rcases hp : parseNoCache k with e | v
  · refine ⟨?_, ?_, ?_, ?_⟩
    · simp [parseCache, hmiss, hp]
    · simp [parseCache, hmiss, hp, assocGet_cons_self]
    · intro v hv
      exact absurd hv (by simp)
    · intro e2 he
      cases he
      refine ⟨?_, ?_, rfl, rfl, rfl, ?_⟩
      · simp [parseCache, hmiss, hp]
      · simp [parseCache, hmiss, hp, assocGet_cons_self]
      · simp [parseCache, hmiss, hp, assocGet_cons_self]
  · refine ⟨?_, ?_, ?_, ?_⟩
    · simp [parseCache, hmiss, hp]
    · simp [parseCache, hmiss, hp, assocGet_cons_self]
    · intro v2 hv
      cases hv
      refine ⟨?_, ?_, ?_⟩
      · simp [parseCache, hmiss, hp]
      · simp [parseCache, hmiss, hp, assocGet_cons_self, toks_copy]
      · simp [parseCache, hmiss, hp, assocGet_cons_self]
    · intro e he
      exact absurd he (by simp)

/-- Witness for claim C2 at a concrete key, state and parse function. -/
theorem claim_C2_witness :
    assocGet (⟨1, "ab", 0, true, true, []⟩ : PackratKey)
      (([] : List (PackratKey × Except ParseExc ParseVal))) = none ∧
    (parseCache (fun _ => .ok (3, [7])) ⟨1, "ab", 0, true, true, []⟩
      ⟨[], 0, 0, 0⟩).2.parse_count = (0 : Nat) + 1 :=
  ⟨rfl, (claim_C2 (fun _ => .ok (3, [7])) ⟨1, "ab", 0, true, true, []⟩
    ⟨[], 0, 0, 0⟩ rfl).1⟩

/-- `str(n)` is never empty. -/
theorem natDigits_ne_nil (n : Nat) : natDigits n ≠ [] := by
  rw [natDigits]
  split <;> simp

/-- Every character of `str(n)` is a decimal digit. -/
theorem natDigits_digits (n : Nat) : ∀ c ∈ natDigits n, isDigitCode c = true := by
  induction n using Nat.strong_induction_on with
  | _ n ih =>
    rw [natDigits]
    split
    · intro c hc
      simp only [List.mem_singleton] at hc
      subst hc
      simp only [isDigitCode, digitCode, Bool.and_eq_true, decide_eq_true_eq]
      omega
    · intro c hc
      rcases List.mem_append.mp hc with h | h
      · exact ih (n / 10) (Nat.div_lt_self (by omega) (by omega)) c h
      · simp only [List.mem_singleton] at h
        subst h
        simp only [isDigitCode, digitCode, Bool.and_eq_true, decide_eq_true_eq]
        have := Nat.mod_lt n (show 0 < 10 by omega)
        omega

/-- Appending one digit multiplies the parsed value by ten and adds it. -/
theorem parseNatCodes_append_one (xs : List Nat) (c : Nat) :
    parseNatCodes (xs ++ [c]) = 10 * parseNatCodes xs + (c - 48) := by
  simp [parseNatCodes, List.foldl_append]

/-- Parsing `str(n)` back gives `n`. -/
theorem parseNatCodes_natDigits (n : Nat) : parseNatCodes (natDigits n) = n := by
  induction n using Nat.strong_induction_on with
  | _ n ih =>
    rw [natDigits]
    split
    · simp only [parseNatCodes, digitCode, List.foldl_cons, List.foldl_nil]
      omega
    · rw [parseNatCodes_append_one, ih (n / 10) (Nat.div_lt_self (by omega) (by omega))]
      simp only [digitCode]
      omega

/-- `split` never returns an empty list of parts. -/
theorem splitDotCodes_ne_nil (s : List Nat) : splitDotCodes s ≠ [] := by
  cases s with
  | nil => simp [splitDotCodes]
  | cons c rest =>
    rw [splitDotCodes]
    split
    · simp
    · split <;> simp

/-- A dot-free string splits into itself. -/
theorem splitDotCodes_no_dot (x : List Nat) (hx : ∀ c ∈ x, c ≠ 46) :
    splitDotCodes x = [x] := by
  induction x with
  | nil => rfl
  | cons c rest ih =>
    rw [splitDotCodes]
    rw [if_neg (hx c (List.mem_cons_self c rest))]
    rw [ih (fun d hd => hx d (List.mem_cons_of_mem c hd))]

/-- Splitting after a dot-free leading part prepends it to the first group. -/
theorem splitDotCodes_append (x w : List Nat) (hx : ∀ c ∈ x, c ≠ 46)
    (g : List Nat) (gs : List (List Nat)) (hw : splitDotCodes w = g :: gs) :
    splitDotCodes (x ++ w) = (x ++ g) :: gs := by
  induction x with
  | nil => simpa using hw
  | cons c rest ih =>
    rw [List.cons_append, splitDotCodes]
    rw [if_neg (hx c (List.mem_cons_self c rest))]
    rw [ih (fun d hd => hx d (List.mem_cons_of_mem c hd))]
    rfl

/-- Splitting on dots undoes joining with dots when no part contains one. -/
theorem splitDotCodes_joinDotCodes (parts : List (List Nat)) (hne : parts ≠ [])
    (hnd : ∀ p ∈ parts, ∀ c ∈ p, c ≠ 46) :
    splitDotCodes (joinDotCodes parts) = parts := by
  induction parts with
  | nil => exact absurd rfl hne
  | cons x rest ih =>
    cases rest with
    | nil =>
      rw [joinDotCodes]
      exact splitDotCodes_no_dot x (hnd x (List.mem_cons_self x []))
    | cons y rest2 =>
      rw [joinDotCodes]
      have hjoin : splitDotCodes (joinDotCodes (y :: rest2)) = y :: rest2 :=
        ih (by simp) (fun p hp => hnd p (List.mem_cons_of_mem x hp))
      have hdot : splitDotCodes (46 :: joinDotCodes (y :: rest2)) = [] :: y :: rest2 := by
        rw [splitDotCodes, if_pos rfl, hjoin]
      have := splitDotCodes_append x (46 :: joinDotCodes (y :: rest2))
        (hnd x (List.mem_cons_self x (y :: rest2))) [] (y :: rest2) hdot
      simpa using this

/-- `int(str(n))` recovers `n`, as a parsed component. -/
theorem tryInt_natDigits (n : Nat) : tryInt (natDigits n) = .num n := by
  rw [tryInt, if_pos, parseNatCodes_natDigits]
  exact ⟨natDigits_ne_nil n, List.all_eq_true.mpr (natDigits_digits n)⟩

/-- Claim C9: for every non-empty tuple of non-negative ints, converting it to
a version string and parsing that back yields the same tuple:
`ver_str_to_tuple (ver_tuple_to_str t) = t` (components as parsed numbers). -/
theorem claim_C9 (t : List Nat) (hne : t ≠ []) :
    ver_str_to_tuple (ver_tuple_to_str t) = t.map VerPart.num := by
  rw [ver_str_to_tuple, ver_tuple_to_str]
  rw [splitDotCodes_joinDotCodes (t.map natDigits) (by simpa using hne) ?dotfree]
  case dotfree =>
    intro p hp c hc
    rcases List.mem_map.mp hp with ⟨n, _, rfl⟩
    have := natDigits_digits n c hc
    simp only [isDigitCode, Bool.and_eq_true, decide_eq_true_eq] at this
    omega
  rw [List.map_map]
  exact List.map_congr_left (fun n _ => tryInt_natDigits n)

/-- Witness for claim C9 on the concrete tuple `(3, 4, 1)`. -/
theorem claim_C9_witness :
    ([3, 4, 1] : List Nat) ≠ [] ∧
    ver_str_to_tuple (ver_tuple_to_str [3, 4, 1])
      = [VerPart.num 3, VerPart.num 4, VerPart.num 1] :=
  ⟨by decide, claim_C9 [3, 4, 1] (by decide)⟩

/-- Counterexample for claim C1: with `min_ver = (3,0,0)`, `max_ver = (4,0,0)`
the gate emits TWO warnings (not exactly one) for the too-new version
`(4,1,0)`, and one warning (not none) for the in-range version `(3,5,0)`,
because the pyparsing-v3 warning fires independently whenever `v >= (3,)`. -/
theorem claim_C1_counterexample :
    (verGe [4, 1, 0] [4, 0, 0] = true ∧
      ((version_gate (some [4, 1, 0]) [3, 0, 0] [4, 0, 0] "python3" "pyparsing" none).toOption.map
        (fun r => (r.1.length, r.2))) = some (2, true)) ∧
    (verGe [3, 5, 0] [3, 0, 0] = true ∧ verLt [3, 5, 0] [4, 0, 0] = true ∧
      ((version_gate (some [3, 5, 0]) [3, 0, 0] [4, 0, 0] "python3" "pyparsing" none).toOption.map
        (fun r => (r.1.length, r.2))) = some (1, true)) := by
  decide

/-- Claim C1 as amended: a null or below-minimum version is a fatal error
whose message contains the exact remediation install command; an in-range
version succeeds, emitting no warning unless `v >= (3,)`, in which case the
single pyparsing-v3 warning fires; a version at or above the maximum succeeds
with the compatibility warning plus, when `v >= (3,)`, the pyparsing-v3
warning (so two warnings in that case); the modern flag is set exactly when
`v >= (3,)`. -/
theorem claim_C1_amended (v min_ver max_ver : List Nat) (python pkg : String)
    (info : Option String) :
    (∃ s, version_gate none min_ver max_ver python pkg info
      = .error (s ++ pip_upgrade_cmd python pkg ++ "' to fix)")) ∧
    (verLt v min_ver = true →
      ∃ s, version_gate (some v) min_ver max_ver python pkg info
        = .error (s ++ pip_upgrade_cmd python pkg ++ "' to fix)")) ∧
    (verLt v min_ver = false → verLt v max_ver = true →
      ∃ ws, version_gate (some v) min_ver max_ver python pkg info
          = .ok (ws, verGe v [3]) ∧
        ws.length = if verGe v [3] then 1 else 0) ∧
    (verLt v min_ver = false → verGe v max_ver = true →
      ∃ ws, version_gate (some v) min_ver max_ver python pkg info
          = .ok (ws, verGe v [3]) ∧
        ws.length = 1 + if verGe v [3] then 1 else 0) := by
  refine ⟨?_, ?_, ?_, ?_⟩
  · exact ⟨"This version of Coconut requires pyparsing/cPyparsing version >= "
      ++ verTupleToString min_ver ++ gotInfo info ++ " (run '", rfl⟩
  · intro h1
    refine ⟨"This version of Coconut requires pyparsing/cPyparsing version >= "
      ++ verTupleToString min_ver ++ gotInfo info ++ " (run '", ?_⟩
    simp [version_gate, h1, tooOldMsg, pip_upgrade_cmd]
  · intro h1 h2
    have hge : verGe v max_ver = false := by simp [verGe, h2]
    cases hm : verGe v [3] with
    | false => exact ⟨[], by simp [version_gate, h1, hge, hm], by simp⟩
    | true =>
      exact ⟨[modernWarning max_ver python], by simp [version_gate, h1, hge, hm], by simp⟩
  · intro h1 h2
    cases hm : verGe v [3] with
    | false =>
      exact ⟨[tooNewWarning max_ver python pkg info],
        by simp [version_gate, h1, h2, hm], by simp⟩
    | true =>
      exact ⟨[tooNewWarning max_ver python pkg info, modernWarning max_ver python],
        by simp [version_gate, h1, h2, hm], by simp⟩

/-- Witness for the amended claim C1 at the repository-realistic range
`[(2,4,7), (2,4,8))` and at versions below, inside and above it. -/
theorem claim_C1_amended_witness :
    (verLt [2, 4, 6] [2, 4, 7] = true ∧
      ∃ s, version_gate (some [2, 4, 6]) [2, 4, 7] [2, 4, 8] "py" "pyparsing" none
        = .error (s ++ pip_upgrade_cmd "py" "pyparsing" ++ "' to fix)")) ∧
    (verLt [2, 4, 7] [2, 4, 7] = false ∧ verLt [2, 4, 7] [2, 4, 8] = true ∧
      ∃ ws, version_gate (some [2, 4, 7]) [2, 4, 7] [2, 4, 8] "py" "pyparsing" none
          = .ok (ws, verGe [2, 4, 7] [3]) ∧
        ws.length = if verGe [2, 4, 7] [3] then 1 else 0) ∧
    (verLt [2, 4, 8] [2, 4, 7] = false ∧ verGe [2, 4, 8] [2, 4, 8] = true ∧
      ∃ ws, version_gate (some [2, 4, 8]) [2, 4, 7] [2, 4, 8] "py" "pyparsing" none
          = .ok (ws, verGe [2, 4, 8] [3]) ∧
        ws.length = 1 + if verGe [2, 4, 8] [3] then 1 else 0) :=
  ⟨⟨by decide,
      (claim_C1_amended [2, 4, 6] [2, 4, 7] [2, 4, 8] "py" "pyparsing" none).2.1 (by decide)⟩,
    ⟨by decide, by decide,
      (claim_C1_amended [2, 4, 7] [2, 4, 7] [2, 4, 8] "py" "pyparsing" none).2.2.1
        (by decide) (by decide)⟩,
    ⟨by decide, by decide,
      (claim_C1_amended [2, 4, 8] [2, 4, 7] [2, 4, 8] "py" "pyparsing" none).2.2.2
        (by decide) (by decide)⟩⟩

/-- The registry is append-only: running the enable pass with a prior registry
appends exactly what a run from an empty registry records. -/
theorem runSetFast_reg {R : Type} (f : Nat → R) (ns : List (Option Nat)) :
    ∀ (cs : Nat → R × R) (reg : List (Nat × (R × R))),
      runSetFast f ns cs reg = ((runSetFast f ns cs []).1, reg ++ (runSetFast f ns cs []).2) := by
  induction ns with
  | nil => intro cs reg; simp [runSetFast]
  | cons o rest ih =>
    intro cs reg
    cases o with
    | none => simp only [runSetFast]; exact ih cs reg
    | some c =>
      simp only [runSetFast]
      rw [ih (updFn cs c (f c, f c)) (reg ++ [(c, cs c)]),
        ih (updFn cs c (f c, f c)) ([] ++ [(c, cs c)])]
      simp

/-- The classes recorded by the enable pass are exactly the parser-element
classes of the namespace, in order. -/
theorem runSetFast_ids {R : Type} (f : Nat → R) (ns : List (Option Nat)) :
    ∀ (cs : Nat → R × R) (reg : List (Nat × (R × R))),
      (runSetFast f ns cs reg).2.map Prod.fst = reg.map Prod.fst ++ ns.filterMap id := by
  induction ns with
  | nil => intro cs reg; simp [runSetFast]
  | cons o rest ih =>
    intro cs reg
    cases o with
    | none => simp only [runSetFast, List.filterMap_cons]; exact ih cs reg
    | some c =>
      simp only [runSetFast, List.filterMap_cons]
      rw [ih (updFn cs c (f c, f c)) (reg ++ [(c, cs c)])]
      simp

/-- Restoring is insensitive to pointwise-equal starting class maps. -/
theorem runUnset_congr {R : Type} (E : List (Nat × (R × R))) :
    ∀ (cs1 cs2 : Nat → R × R), (∀ y, cs1 y = cs2 y) →
      ∀ x, runUnset E cs1 x = runUnset E cs2 x := by
  induction E with
  | nil => intro cs1 cs2 h x; exact h x
  | cons e rest ih =>
    intro cs1 cs2 h x
    obtain ⟨d, w⟩ := e
    simp only [runUnset]
    refine ih (updFn cs1 d w) (updFn cs2 d w) (fun y => ?_) x
    simp only [updFn]
    split
    · rfl
    · exact h y

/-- Restoring a registry that never mentions class `c` commutes with an update
of class `c`. -/
theorem runUnset_updFn {R : Type} (E : List (Nat × (R × R))) :
    ∀ (cs : Nat → R × R) (c : Nat) (v : R × R) (x : Nat), c ∉ E.map Prod.fst →
      runUnset E (updFn cs c v) x = if x = c then v else runUnset E cs x := by
  induction E with
  | nil =>
    intro cs c v x _
    simp only [runUnset, updFn]
  | cons e rest ih =>
    intro cs c v x hc
    obtain ⟨d, w⟩ := e
    simp only [List.map_cons, List.mem_cons, not_or] at hc
    obtain ⟨hcd, hcrest⟩ := hc
    simp only [runUnset]
    have hswap : ∀ y, updFn (updFn cs c v) d w y = updFn (updFn cs d w) c v y := by
      intro y
      simp only [updFn]
      by_cases hyd : y = d
      · by_cases hyc : y = c
        · exact absurd (hyc ▸ hyd) hcd
        · simp [hyd, hyc, Ne.symm hcd]
      · by_cases hyc : y = c <;> simp [hyd, hyc, hcd, Ne.symm hcd]
    rw [runUnset_congr rest _ _ hswap x, ih (updFn cs d w) c v x hcrest]

/-- The final class map after the enable pass: the fast pair on every
parser-element class of the namespace, the original pair elsewhere. -/
theorem runSetFast_classes {R : Type} (f : Nat → R) (ns : List (Option Nat)) :
    ∀ (cs : Nat → R × R) (reg : List (Nat × (R × R))) (x : Nat),
      (runSetFast f ns cs reg).1 x
        = if x ∈ ns.filterMap id then (f x, f x) else cs x := by
  induction ns with
  | nil => intro cs reg x; simp [runSetFast]
  | cons o rest ih =>
    intro cs reg x
    cases o with
    | none => simp only [runSetFast, List.filterMap_cons]; exact ih cs reg x
    | some c =>
      simp only [runSetFast, List.filterMap_cons]
      rw [ih (updFn cs c (f c, f c)) (reg ++ [(c, cs c)]) x]
      by_cases hx : x ∈ rest.filterMap id <;> by_cases hxc : x = c <;>
        simp [updFn, hx, hxc]

/-- Claim C5: the representation optimiser is reversible and idempotent:
enabling fast reprs and then disabling restores every class's original
`__repr__`/`__str__` pair exactly (the namespace listing each parser-element
class once); disabling with an empty registry is a no-op; enabling twice
leaves the same class functions as enabling once. -/
theorem claim_C5 {R : Type} (f : Nat → R) (ns : List (Option Nat))
    (cs : Nat → R × R) (x : Nat) (hnd : (ns.filterMap id).Nodup) :
    runUnset (runSetFast f ns cs []).2 (runSetFast f ns cs []).1 x = cs x ∧
    (∀ cs2 : Nat → R × R, runUnset [] cs2 x = cs2 x) ∧
    (∀ reg2, (runSetFast f ns (runSetFast f ns cs []).1 reg2).1 x
      = (runSetFast f ns cs []).1 x) := by
  refine ⟨?_, fun cs2 => rfl, fun reg2 => ?_⟩
  · induction ns generalizing cs with
    | nil => rfl
    | cons o rest ih =>
      cases o with
      | none =>
        rw [show List.filterMap id (none :: rest) = List.filterMap id rest by simp] at hnd
        exact ih cs hnd
      | some c =>
        rw [show List.filterMap id (some c :: rest) = c :: List.filterMap id rest by simp] at hnd
        rcases List.nodup_cons.mp hnd with ⟨hc, hnd2⟩
        show runUnset (runSetFast f rest (updFn cs c (f c, f c)) [(c, cs c)]).2
          (runSetFast f rest (updFn cs c (f c, f c)) [(c, cs c)]).1 x = cs x
        rw [runSetFast_reg f rest (updFn cs c (f c, f c)) [(c, cs c)]]
        show runUnset (runSetFast f rest (updFn cs c (f c, f c)) []).2
          (updFn (runSetFast f rest (updFn cs c (f c, f c)) []).1 c (cs c)) x = cs x
        have hids : c ∉ ((runSetFast f rest (updFn cs c (f c, f c)) []).2.map Prod.fst) := by
          rw [runSetFast_ids]
          simpa using hc
        rw [runUnset_updFn _ _ c (cs c) x hids]
        by_cases hxc : x = c
        · simp [hxc]
        · rw [if_neg hxc, ih (updFn cs c (f c, f c)) hnd2]
          simp [updFn, hxc]
  · rw [runSetFast_classes, runSetFast_classes]
    by_cases hx : x ∈ ns.filterMap id <;> simp [hx]

/-- Witness for claim C5 on a concrete namespace, class map and fast repr. -/
theorem claim_C5_witness :
    (([some 1, none, some 2] : List (Option Nat)).filterMap id).Nodup ∧
    runUnset (runSetFast (fun n => 100 + n) [some 1, none, some 2]
        (fun n => (n, n + 1)) []).2
      (runSetFast (fun n => 100 + n) [some 1, none, some 2]
        (fun n => (n, n + 1)) []).1 1 = (1, 2) :=
  ⟨by decide,
    ((claim_C5 (fun n => 100 + n) [some 1, none, some 2]
      (fun n => (n, n + 1)) 1 (by decide)).1).trans rfl⟩

/-- `ensure_dir` on a writable path succeeds, touching only the directory
list. -/
theorem ensure_dir_ok (d : String) (fs : KFS) (hw : fs.writable d = true) :
    ∃ fs2, ensure_dir d fs = (fs2, true) ∧ fs2.files = fs.files ∧
      fs2.writable = fs.writable ∧ d ∈ fs2.dirs := by
  by_cases hd : d ∈ fs.dirs
  · exact ⟨fs, by simp [ensure_dir, hd], rfl, rfl, hd⟩
  · refine ⟨{ fs with dirs := d :: fs.dirs }, ?_, rfl, rfl, by simp⟩
    simp [ensure_dir, hd, mkdirFS, hw]

/-- `ensure_dir` on a missing, unwritable path reports failure and leaves the
filesystem unchanged. -/
theorem ensure_dir_fail (d : String) (fs : KFS) (hd : d ∉ fs.dirs)
    (hw : fs.writable d = false) : ensure_dir d fs = (fs, false) := by
  rw [ensure_dir, if_neg hd, mkdirFS, if_neg (by simp [hw])]

/-- A writable kernel source dir lets `make_custom_kernel` succeed, writing
the kernel file, preserving the permission oracle and at most adding the
kernel dir to the directory list. -/
theorem make_custom_kernel_ok (executable icdir : String) (fs : KFS)
    (hic : fs.writable icdir = true) :
    ∃ fs1, make_custom_kernel executable icdir fs = .ok fs1 ∧
      fs1.writable = fs.writable ∧
      assocGet (pathJoin icdir "kernel.json") fs1.files
        = some (kernel_json_of executable) ∧
      fs1.dirs = (if icdir ∈ fs.dirs then fs.dirs else icdir :: fs.dirs) :=
  ⟨{ fs with
      dirs := if icdir ∈ fs.dirs then fs.dirs else icdir :: fs.dirs
      files := (pathJoin icdir "kernel.json", kernel_json_of executable)
        :: fs.files.filter (fun pc => !(pc.1.startsWith (icdir ++ "/"))) },
    by rw [make_custom_kernel, if_pos hic], rfl, by simp [assocGet], rfl⟩

/-- Claim C8: `install_custom_kernel` returns the destination directory on
success, having written there a `kernel.json` whose argv launches the kernel
entry point with display name "Coconut" and language "coconut"; on an
`OSError` (unwritable kernel source dir, or unwritable and missing
destination) it returns `none` and emits exactly one warning that ends in the
OS-specific remediation hint, without propagating the error. -/
theorem claim_C8 (executable icdir kdest : String) (windows : Bool) (fs : KFS) :
    (fs.writable icdir = true → fs.writable kdest = true →
      ∃ fs3, install_custom_kernel executable icdir kdest windows fs
          = (some kdest, fs3, []) ∧
        assocGet (pathJoin kdest "kernel.json") fs3.files
          = some (kernel_json_of executable) ∧
        (kernel_json_of executable).argv
          = [executable, "-m", "coconut.icoconut", "-f", "{connection_file}"] ∧
        (kernel_json_of executable).display_name = "Coconut" ∧
        (kernel_json_of executable).language = "coconut") ∧
    (fs.writable icdir = false →
      ∃ p, install_custom_kernel executable icdir kdest windows fs
        = (none, fs, [p ++ os_perm_hint windows ++ "."])) ∧
    (fs.writable icdir = true → fs.writable kdest = false →
      kdest ∉ fs.dirs → kdest ≠ icdir →
      ∃ fs3 p, install_custom_kernel executable icdir kdest windows fs
        = (none, fs3, [p ++ os_perm_hint windows ++ "."])) := by
  refine ⟨?_, ?_, ?_⟩
  · intro hic hkd
    obtain ⟨fs1, hmk, hw1, hget1, _⟩ := make_custom_kernel_ok executable icdir fs hic
    obtain ⟨fs2, he, hfiles2, hw2, hdin2⟩ :=
      ensure_dir_ok kdest fs1 (by rw [hw1]; exact hkd)
    have hcond : (decide (kdest ∈ fs2.dirs) && fs2.writable kdest) = true := by
      simp only [Bool.and_eq_true, decide_eq_true_eq]
      exact ⟨hdin2, by rw [hw2, hw1]; exact hkd⟩
    have hcp : copyFS (pathJoin icdir "kernel.json") kdest fs2
        = .ok { fs2 with
            files := (pathJoin kdest "kernel.json", kernel_json_of executable)
              :: fs2.files } := by
      rw [copyFS]
      rw [show assocGet (pathJoin icdir "kernel.json") fs2.files
        = some (kernel_json_of executable) from by rw [hfiles2]; exact hget1]
      simp only [hcond, if_true]
    refine ⟨{ fs2 with
        files := (pathJoin kdest "kernel.json", kernel_json_of executable)
          :: fs2.files }, ?_, by simp [assocGet], rfl, rfl, rfl⟩
    rw [install_custom_kernel, hmk]
    simp only [he, hcp]
  · intro hic
    have hmk : make_custom_kernel executable icdir fs = .error fs := by
      simp [make_custom_kernel, hic]
    refine ⟨if (assocGet (pathJoin kdest "kernel.json") fs.files).isSome then
        "Failed to update Coconut Jupyter kernel installation; the 'coconut' kernel might not work properly as a result"
      else "Coconut Jupyter kernel installation failed due to above error", ?_⟩
    rw [install_custom_kernel, hmk]
    rfl
  · intro hic hkd hkdm hkdi
    obtain ⟨fs1, hmk, hw1, hget1, hdirs1⟩ := make_custom_kernel_ok executable icdir fs hic
    have hnotin : kdest ∉ fs1.dirs := by
      rw [hdirs1]
      by_cases hie : icdir ∈ fs.dirs
      · simpa [hie] using hkdm
      · simp only [hie, if_false]
        intro hmem
        rcases List.mem_cons.mp hmem with h | h
        · exact hkdi h
        · exact hkdm h
    have hens : ensure_dir kdest fs1 = (fs1, false) :=
      ensure_dir_fail kdest fs1 hnotin (by rw [hw1]; exact hkd)
    have hcond : (decide (kdest ∈ fs1.dirs) && fs1.writable kdest) = false := by
      simp only [Bool.and_eq_false_iff, decide_eq_false_iff_not]
      exact Or.inl hnotin
    have hcp : copyFS (pathJoin icdir "kernel.json") kdest fs1 = .error fs1 := by
      rw [copyFS, hget1]
      simp only [hcond, Bool.false_eq_true, if_false]
    refine ⟨fs1,
      if (assocGet (pathJoin kdest "kernel.json") fs1.files).isSome then
        "Failed to update Coconut Jupyter kernel installation; the 'coconut' kernel might not work properly as a result"
      else "Coconut Jupyter kernel installation failed due to above error", ?_⟩
    rw [install_custom_kernel, hmk]
    simp only [hens, hcp]
    rfl

/-- Witness for claim C8 on a concrete filesystem where everything is
writable, and on one where nothing is. -/
theorem claim_C8_witness :
    ((⟨[], [], fun _ => true⟩ : KFS).writable "ic" = true ∧
      (⟨[], [], fun _ => true⟩ : KFS).writable "kd" = true ∧
      ∃ fs3, install_custom_kernel "py" "ic" "kd" false ⟨[], [], fun _ => true⟩
          = (some "kd", fs3, []) ∧
        assocGet (pathJoin "kd" "kernel.json") fs3.files = some (kernel_json_of "py") ∧
        (kernel_json_of "py").argv = ["py", "-m", "coconut.icoconut", "-f", "{connection_file}"] ∧
        (kernel_json_of "py").display_name = "Coconut" ∧
        (kernel_json_of "py").language = "coconut") ∧
    ((⟨[], [], fun _ => false⟩ : KFS).writable "ic" = false ∧
      ∃ p, install_custom_kernel "py" "ic" "kd" true ⟨[], [], fun _ => false⟩
        = (none, ⟨[], [], fun _ => false⟩, [p ++ os_perm_hint true ++ "."])) :=
  ⟨⟨rfl, rfl, (claim_C8 "py" "ic" "kd" false ⟨[], [], fun _ => true⟩).1 rfl rfl⟩,
    ⟨rfl, (claim_C8 "py" "ic" "kd" true ⟨[], [], fun _ => false⟩).2.1 rfl⟩⟩

/-- `getD` after `set`: the new value inside bounds at the set index,
unchanged elsewhere. -/
theorem getD_set_general {α : Type} (l : List α) (i : Nat) (a : α) (j : Nat) (d : α) :
    (l.set i a).getD j d = if i = j ∧ i < l.length then a else l.getD j d := by
  simp only [List.getD_eq_getElem?_getD, List.getElem?_set]
  by_cases hij : i = j
  · subst hij
    by_cases hlt : i < l.length
    · simp [hlt]
    · simp [hlt, List.getElem?_eq_none (by omega : l.length ≤ i)]
  · simp [hij]

/-- Appending a timing sample preserves the statistics invariant. -/
theorem addTiming_inv (st : MFState) (i : Nat) (t : Rat) (h : MFInv st) :
    MFInv (st.addTiming i t) := by
  refine ⟨by simp [MFState.addTiming, h.1], fun j => ?_⟩
  simp only [MFState.addTiming]
  rw [getD_set_general]
  split
  · rename_i hij
    obtain ⟨hij1, _⟩ := hij
    subst hij1
    calc st.expr_usage_stats.getD i 0 ≤ (st.expr_timing_stats.getD i []).length := h.2 i
      _ ≤ (st.expr_timing_stats.getD i [] ++ [t]).length := by simp
  · exact h.2 j

/-- Appending a timing sample and then incrementing the same usage slot
preserves the statistics invariant. -/
theorem addUsage_addTiming_inv (st : MFState) (i : Nat) (t : Rat) (h : MFInv st) :
    MFInv ((st.addTiming i t).addUsage i) := by
  refine ⟨by simp [MFState.addTiming, MFState.addUsage, h.1], fun j => ?_⟩
  simp only [MFState.addTiming, MFState.addUsage]
  rw [getD_set_general, getD_set_general]
  by_cases hij : i = j ∧ i < st.expr_usage_stats.length
  · obtain ⟨hij1, hlt⟩ := hij
    subst hij1
    rw [if_pos ⟨rfl, hlt⟩, if_pos ⟨rfl, by rw [h.1] at hlt; exact hlt⟩]
    have := h.2 i
    simp only [List.length_append, List.length_cons, List.length_nil]
    omega
  · rw [if_neg hij, if_neg]
    · exact h.2 j
    · intro hc
      exact hij ⟨hc.1, by rw [h.1]; exact hc.2⟩

/-- The profiling loop preserves the statistics invariant. -/
theorem mf_go_inv {V : Type} (semsg : String) (slen loc : Nat) :
    ∀ (l : List (Alt V × Rat)) (i : Nat) (maxL : Int) (maxE : Option (Nat × Nat))
      (st : MFState), MFInv st → MFInv (mf_go semsg slen loc l i maxL maxE st).2 := by
  intro l
  induction l with
  | nil =>
    intro i maxL maxE st h
    cases maxE with
    | none => exact h
    | some p => obtain ⟨i0, l0⟩ := p; exact h
  | cons hd rest ih =>
    intro i maxL maxE st h
    obtain ⟨⟨ares, aerr⟩, t⟩ := hd
    cases ares with
    | ok v => exact addUsage_addTiming_inv st i t h
    | perr l0 m0 =>
      show MFInv ((if (l0 : Int) > maxL then
          mf_go semsg slen loc rest (i + 1) l0 (some (i, l0)) (st.addTiming i t)
        else mf_go semsg slen loc rest (i + 1) maxL maxE (st.addTiming i t)).2)
      split
      · exact ih (i + 1) l0 (some (i, l0)) (st.addTiming i t) (addTiming_inv st i t h)
      · exact ih (i + 1) maxL maxE (st.addTiming i t) (addTiming_inv st i t h)
    | ierr =>
      show MFInv ((if (slen : Int) > maxL then
          mf_go semsg slen loc rest (i + 1) slen (some (i, slen)) (st.addTiming i t)
        else mf_go semsg slen loc rest (i + 1) maxL maxE (st.addTiming i t)).2)
      split
      · exact ih (i + 1) slen (some (i, slen)) (st.addTiming i t) (addTiming_inv st i t h)
      · exact ih (i + 1) maxL maxE (st.addTiming i t) (addTiming_inv st i t h)

/-- The lazily initialised statistics satisfy the invariant. -/
theorem init_inv {V : Type} (alts : List (Alt V × Rat)) :
    MFInv ⟨List.replicate alts.length 0, List.replicate alts.length []⟩ := by
  refine ⟨by simp, fun i => ?_⟩
  simp only [List.getD_eq_getElem?_getD, List.getElem?_replicate]
  by_cases hi : i < alts.length <;> simp [hi]

/-- Claim C10: after every invocation of the profiled `parseImpl` (a fresh
first invocation, or any later one whose incoming statistics satisfy the
invariant), every usage count is at most the number of timing samples for the
same alternative: a sample is appended for every attempted alternative while
usage is incremented only on success. -/
theorem claim_C10 {V : Type} (semsg : String) (slen loc : Nat)
    (alts : List (Alt V × Rat)) :
    (∀ i, (new_parseImpl semsg slen loc alts none).2.expr_usage_stats.getD i 0
      ≤ ((new_parseImpl semsg slen loc alts none).2.expr_timing_stats.getD i []).length) ∧
    (∀ st : MFState, MFInv st →
      ∀ i, (new_parseImpl semsg slen loc alts (some st)).2.expr_usage_stats.getD i 0
        ≤ ((new_parseImpl semsg slen loc alts (some st)).2.expr_timing_stats.getD i []).length) :=
  ⟨(mf_go_inv semsg slen loc alts 0 (-1) none _ (init_inv alts)).2,
    fun st h => (mf_go_inv semsg slen loc alts 0 (-1) none st h).2⟩

/-- Witness for claim C10 with one failing alternative and empty prior
statistics. -/
theorem claim_C10_witness :
    MFInv ⟨[], []⟩ ∧
    ∀ i, (new_parseImpl "m" 5 0 [(⟨AltRes.ierr, "e"⟩, (1 : Rat))]
        (some ⟨[], []⟩) : Except MFErr Nat × MFState).2.expr_usage_stats.getD i 0
      ≤ ((new_parseImpl "m" 5 0 [(⟨AltRes.ierr, "e"⟩, (1 : Rat))]
        (some ⟨[], []⟩) : Except MFErr Nat × MFState).2.expr_timing_stats.getD i []).length := by
  have h0 : MFInv ⟨[], []⟩ := ⟨rfl, fun i => by simp [List.getD]⟩
  exact ⟨h0, (claim_C10 "m" 5 0 [(⟨AltRes.ierr, "e"⟩, (1 : Rat))]).2 ⟨[], []⟩ h0⟩

/-- A `getD` inside bounds is a member of the list. -/
theorem getD_mem_of_lt {α : Type} (l : List α) (j : Nat) (d : α) (h : j < l.length) :
    l.getD j d ∈ l := by
  rw [List.getD_eq_getElem?_getD, List.getElem?_eq_getElem h]
  exact List.getElem_mem h

/-- On total failure the loop's raised error is determined by the pure
max-tracking fold over the effective failure locations. -/
theorem mf_go_fail {V : Type} (semsg : String) (slen loc : Nat) :
    ∀ (l : List (Alt V × Rat)) (i : Nat) (maxL : Int) (maxE : Option (Nat × Nat))
      (st : MFState), (∀ p ∈ l, p.1.succeeds = false) →
      (mf_go semsg slen loc l i maxL maxE st).1 =
        (match (runMax maxL maxE i (l.map (fun p => effLoc slen p.1))).2 with
          | none => .error ⟨loc, "no defined alternatives to match", none⟩
          | some (i0, l0) => .error ⟨l0, semsg, some i0⟩) := by
  intro l
  induction l with
  | nil =>
    intro i maxL maxE st _
    cases maxE with
    | none => rfl
    | some p => obtain ⟨i0, l0⟩ := p; rfl
  | cons hd rest ih =>
    intro i maxL maxE st hfail
    obtain ⟨⟨ares, aerr⟩, t⟩ := hd
    cases ares with
    | ok v =>
      exact absurd (hfail _ (List.mem_cons_self _ _)) (by simp [Alt.succeeds])
    | perr l0 m0 =>
      show (if (l0 : Int) > maxL then
          mf_go semsg slen loc rest (i + 1) l0 (some (i, l0)) (st.addTiming i t)
        else mf_go semsg slen loc rest (i + 1) maxL maxE (st.addTiming i t)).1 = _
      have hrest : ∀ p ∈ rest, p.1.succeeds = false :=
        fun p hp => hfail p (List.mem_cons_of_mem _ hp)
      rw [List.map_cons]
      show _ = (match (runMax maxL maxE i (effLoc slen ⟨AltRes.perr l0 m0, aerr⟩
        :: rest.map (fun p => effLoc slen p.1))).2 with
          | none => Except.error ⟨loc, "no defined alternatives to match", none⟩
          | some (i0, l1) => Except.error ⟨l1, semsg, some i0⟩)
      rw [show effLoc slen (⟨AltRes.perr l0 m0, aerr⟩ : Alt V) = l0 from rfl, runMax]
      split
      · exact ih (i + 1) l0 (some (i, l0)) (st.addTiming i t) hrest
      · exact ih (i + 1) maxL maxE (st.addTiming i t) hrest
    | ierr =>
      show (if (slen : Int) > maxL then
          mf_go semsg slen loc rest (i + 1) slen (some (i, slen)) (st.addTiming i t)
        else mf_go semsg slen loc rest (i + 1) maxL maxE (st.addTiming i t)).1 = _
      have hrest : ∀ p ∈ rest, p.1.succeeds = false :=
        fun p hp => hfail p (List.mem_cons_of_mem _ hp)
      rw [List.map_cons]
      show _ = (match (runMax maxL maxE i (effLoc slen ⟨AltRes.ierr, aerr⟩
        :: rest.map (fun p => effLoc slen p.1))).2 with
          | none => Except.error ⟨loc, "no defined alternatives to match", none⟩
          | some (i0, l1) => Except.error ⟨l1, semsg, some i0⟩)
      rw [show effLoc slen (⟨AltRes.ierr, aerr⟩ : Alt V) = slen from rfl, runMax]
      split
      · exact ih (i + 1) slen (some (i, slen)) (st.addTiming i t) hrest
      · exact ih (i + 1) maxL maxE (st.addTiming i t) hrest

/-- What the max-tracking fold computes: either nothing beats the incoming
`maxExcLoc` and the kept exception is unchanged, or the kept exception is the
first position attaining the maximum location among those beating it. -/
theorem runMax_spec :
    ∀ (xs : List Nat) (i : Nat) (maxL : Int) (maxE : Option (Nat × Nat)),
      ((∀ x ∈ xs, (x : Int) ≤ maxL) ∧ (runMax maxL maxE i xs).2 = maxE) ∨
      (∃ j0, j0 < xs.length ∧ ((xs.getD j0 0 : Int) > maxL) ∧
        (runMax maxL maxE i xs).2 = some (i + j0, xs.getD j0 0) ∧
        (∀ j < xs.length, xs.getD j 0 ≤ xs.getD j0 0) ∧
        (∀ j < j0, xs.getD j 0 < xs.getD j0 0)) := by
  intro xs
  induction xs with
  | nil => intro i maxL maxE; exact Or.inl ⟨by simp, rfl⟩
  | cons x rest ih =>
    intro i maxL maxE
    by_cases hx : (x : Int) > maxL
    · rw [show runMax maxL maxE i (x :: rest)
        = runMax x (some (i, x)) (i + 1) rest from by rw [runMax, if_pos hx]]
      rcases ih (i + 1) x (some (i, x)) with ⟨hall, hout⟩ | ⟨j0, hlen, hgt, hout, hmax, hfirst⟩
      · refine Or.inr ⟨0, by simp, by simpa using hx, by simpa using hout, ?_, by omega⟩
        intro j hj
        cases j with
        | zero => simp
        | succ j =>
          simp only [List.getD_cons_succ, List.getD_cons_zero]
          have hmem : rest.getD j 0 ∈ rest :=
            getD_mem_of_lt rest j 0 (by simpa using hj)
          exact_mod_cast hall _ hmem
      · refine Or.inr ⟨j0 + 1, by simpa using hlen, ?_, ?_, ?_, ?_⟩
        · simpa using lt_trans hx hgt
        · rw [hout, List.getD_cons_succ]
          have harith : i + 1 + j0 = i + (j0 + 1) := by omega
          rw [harith]
        · intro j hj
          cases j with
          | zero =>
            simp only [List.getD_cons_succ, List.getD_cons_zero]
            exact_mod_cast le_of_lt hgt
          | succ j => simpa using hmax j (by simpa using hj)
        · intro j hj
          cases j with
          | zero =>
            simp only [List.getD_cons_succ, List.getD_cons_zero]
            exact_mod_cast hgt
          | succ j => simpa using hfirst j (by omega)
    · rw [show runMax maxL maxE i (x :: rest)
        = runMax maxL maxE (i + 1) rest from by rw [runMax, if_neg hx]]
      rcases ih (i + 1) maxL maxE with ⟨hall, hout⟩ | ⟨j0, hlen, hgt, hout, hmax, hfirst⟩
      · refine Or.inl ⟨?_, hout⟩
        intro y hy
        rcases List.mem_cons.mp hy with h | h
        · subst h; omega
        · exact hall y h
      · refine Or.inr ⟨j0 + 1, by simpa using hlen, by simpa using hgt, ?_, ?_, ?_⟩
        · rw [hout, List.getD_cons_succ]
          have harith : i + 1 + j0 = i + (j0 + 1) := by omega
          rw [harith]
        · intro j hj
          cases j with
          | zero =>
            simp only [List.getD_cons_succ, List.getD_cons_zero]
            have : (x : Int) ≤ maxL := by omega
            have h2 : (x : Int) < (rest.getD j0 0 : Int) := lt_of_le_of_lt this hgt
            exact_mod_cast le_of_lt h2
          | succ j => simpa using hmax j (by simpa using hj)
        · intro j hj
          cases j with
          | zero =>
            simp only [List.getD_cons_succ, List.getD_cons_zero]
            have : (x : Int) ≤ maxL := by omega
            have h2 : (x : Int) < (rest.getD j0 0 : Int) := lt_of_le_of_lt this hgt
            exact_mod_cast h2
          | succ j => simpa using hfirst j (by omega)

/-- The first successful alternative wins, whatever came before it failed. -/
theorem mf_go_first_success {V : Type} (semsg : String) (slen loc : Nat) :
    ∀ (pre : List (Alt V × Rat)) (a : Alt V) (t : Rat) (v : V)
      (rest : List (Alt V × Rat)) (i : Nat) (maxL : Int) (maxE : Option (Nat × Nat))
      (st : MFState), (∀ p ∈ pre, p.1.succeeds = false) → a.res = .ok v →
      (mf_go semsg slen loc (pre ++ (a, t) :: rest) i maxL maxE st).1 = .ok v := by
  intro pre
  induction pre with
  | nil =>
    intro a t v rest i maxL maxE st _ hres
    obtain ⟨ares, aerr⟩ := a
    cases ares with
    | ok w => cases hres; rfl
    | perr l0 m0 => exact absurd hres (by simp)
    | ierr => exact absurd hres (by simp)
  | cons hd pre2 ih =>
    intro a t v rest i maxL maxE st hfail hres
    obtain ⟨⟨ares, aerr⟩, t2⟩ := hd
    cases ares with
    | ok w =>
      exact absurd (hfail _ (List.mem_cons_self _ _)) (by simp [Alt.succeeds])
    | perr l0 m0 =>
      show (if (l0 : Int) > maxL then
          mf_go semsg slen loc (pre2 ++ (a, t) :: rest) (i + 1) l0 (some (i, l0))
            (st.addTiming i t2)
        else mf_go semsg slen loc (pre2 ++ (a, t) :: rest) (i + 1) maxL maxE
            (st.addTiming i t2)).1 = .ok v
      have hpre : ∀ p ∈ pre2, p.1.succeeds = false :=
        fun p hp => hfail p (List.mem_cons_of_mem _ hp)
      split
      · exact ih a t v rest (i + 1) l0 (some (i, l0)) (st.addTiming i t2) hpre hres
      · exact ih a t v rest (i + 1) maxL maxE (st.addTiming i t2) hpre hres
    | ierr =>
      show (if (slen : Int) > maxL then
          mf_go semsg slen loc (pre2 ++ (a, t) :: rest) (i + 1) slen (some (i, slen))
            (st.addTiming i t2)
        else mf_go semsg slen loc (pre2 ++ (a, t) :: rest) (i + 1) maxL maxE
            (st.addTiming i t2)).1 = .ok v
      have hpre : ∀ p ∈ pre2, p.1.succeeds = false :=
        fun p hp => hfail p (List.mem_cons_of_mem _ hp)
      split
      · exact ih a t v rest (i + 1) slen (some (i, slen)) (st.addTiming i t2) hpre hres
      · exact ih a t v rest (i + 1) maxL maxE (st.addTiming i t2) hpre hres

/-- Claim C6: in the profiled ordered choice, the first alternative to match
wins; when every alternative fails the raised error carries the location of
the structured parse error (an indexing fault counting as a synthetic failure
at end of input) that progressed furthest, from the first such alternative in
order, with the message overwritten by the element's own message; and with no
alternatives at all a generic no-alternatives error positioned at the current
location is raised. -/
theorem claim_C6 {V : Type} (semsg : String) (slen loc : Nat)
    (prior : Option MFState) :
    (∀ (pre : List (Alt V × Rat)) (a : Alt V) (t : Rat) (v : V)
      (rest : List (Alt V × Rat)),
      (∀ p ∈ pre, p.1.succeeds = false) → a.res = .ok v →
      (new_parseImpl semsg slen loc (pre ++ (a, t) :: rest) prior).1 = .ok v) ∧
    (∀ alts : List (Alt V × Rat), alts ≠ [] →
      (∀ p ∈ alts, p.1.succeeds = false) →
      ∃ i0, i0 < alts.length ∧
        (new_parseImpl semsg slen loc alts prior).1
          = .error ⟨(alts.map (fun p => effLoc slen p.1)).getD i0 0, semsg, some i0⟩ ∧
        (∀ j < alts.length, (alts.map (fun p => effLoc slen p.1)).getD j 0
          ≤ (alts.map (fun p => effLoc slen p.1)).getD i0 0) ∧
        (∀ j < i0, (alts.map (fun p => effLoc slen p.1)).getD j 0
          < (alts.map (fun p => effLoc slen p.1)).getD i0 0)) ∧
    ((new_parseImpl semsg slen loc ([] : List (Alt V × Rat)) prior).1
      = .error ⟨loc, "no defined alternatives to match", none⟩) := by
  refine ⟨?_, ?_, ?_⟩
  · intro pre a t v rest hfail hres
    exact mf_go_first_success semsg slen loc pre a t v rest 0 (-1) none _ hfail hres
  · have main : ∀ (alts : List (Alt V × Rat)) (st : MFState), alts ≠ [] →
        (∀ p ∈ alts, p.1.succeeds = false) →
        ∃ i0, i0 < alts.length ∧
          (mf_go semsg slen loc alts 0 (-1) none st).1
            = .error ⟨(alts.map (fun p => effLoc slen p.1)).getD i0 0, semsg, some i0⟩ ∧
          (∀ j < alts.length, (alts.map (fun p => effLoc slen p.1)).getD j 0
            ≤ (alts.map (fun p => effLoc slen p.1)).getD i0 0) ∧
          (∀ j < i0, (alts.map (fun p => effLoc slen p.1)).getD j 0
            < (alts.map (fun p => effLoc slen p.1)).getD i0 0) := by
      intro alts st hne hfail
      have hres := mf_go_fail semsg slen loc alts 0 (-1) none st hfail
      rcases runMax_spec (alts.map (fun p => effLoc slen p.1)) 0 (-1) none with
        ⟨hall, hout⟩ | ⟨j0, hlen, _, hout, hmax, hfirst⟩
      · exfalso
        obtain ⟨p, hp⟩ := List.exists_mem_of_ne_nil alts hne
        have := hall (effLoc slen p.1) (List.mem_map_of_mem _ hp)
        omega
      · refine ⟨j0, by simpa using hlen, ?_, fun j hj => hmax j (by simpa using hj), hfirst⟩
        rw [hres, hout, Nat.zero_add]
    intro alts hne hfail
    cases prior with
    | none => exact main alts _ hne hfail
    | some st => exact main alts st hne hfail
  · cases prior with
    | none => rfl
    | some st => rfl

/-- Witness for claim C6: a failing alternative followed by a succeeding one
returns the success; two failing alternatives raise the error of the one that
reached furthest. -/
theorem claim_C6_witness :
    ((∀ p ∈ [((⟨AltRes.perr 2 "x", "e"⟩ : Alt Nat), (1 : Rat))], p.1.succeeds = false) ∧
      (⟨AltRes.ok 42, "e2"⟩ : Alt Nat).res = .ok 42 ∧
      (new_parseImpl "msg" 7 0
        ([((⟨AltRes.perr 2 "x", "e"⟩ : Alt Nat), (1 : Rat))]
          ++ ((⟨AltRes.ok 42, "e2"⟩ : Alt Nat), (1 : Rat)) :: []) none).1 = .ok 42) ∧
    (([((⟨AltRes.perr 2 "x", "e"⟩ : Alt Nat), (1 : Rat)),
        ((⟨AltRes.ierr, "e2"⟩ : Alt Nat), (1 : Rat))] : List (Alt Nat × Rat)) ≠ [] ∧
      (∀ p ∈ ([((⟨AltRes.perr 2 "x", "e"⟩ : Alt Nat), (1 : Rat)),
        ((⟨AltRes.ierr, "e2"⟩ : Alt Nat), (1 : Rat))] : List (Alt Nat × Rat)),
          p.1.succeeds = false) ∧
      ∃ i0, i0 < 2 ∧
        (new_parseImpl "msg" 7 0
          ([((⟨AltRes.perr 2 "x", "e"⟩ : Alt Nat), (1 : Rat)),
            ((⟨AltRes.ierr, "e2"⟩ : Alt Nat), (1 : Rat))]) none).1
          = .error ⟨(([((⟨AltRes.perr 2 "x", "e"⟩ : Alt Nat), (1 : Rat)),
              ((⟨AltRes.ierr, "e2"⟩ : Alt Nat), (1 : Rat))].map
                (fun p => effLoc 7 p.1))).getD i0 0, "msg", some i0⟩) := by
  refine ⟨⟨by decide, rfl, ?_⟩, by decide, by decide, ?_⟩
  · exact (claim_C6 "msg" 7 0 none).1
      [((⟨AltRes.perr 2 "x", "e"⟩ : Alt Nat), (1 : Rat))]
      ⟨AltRes.ok 42, "e2"⟩ 1 42 [] (by decide) rfl
  · obtain ⟨i0, hlen, hres, _, _⟩ := (claim_C6 "msg" 7 0 none).2.1
      ([((⟨AltRes.perr 2 "x", "e"⟩ : Alt Nat), (1 : Rat)),
        ((⟨AltRes.ierr, "e2"⟩ : Alt Nat), (1 : Rat))]) (by decide) (by decide)
    exact ⟨i0, by simpa using hlen, hres⟩

/-- Usage sum of a cons of `(usage, average)` pairs. -/
theorem sumFst_cons (n : Nat) (t : Rat) (l : List (Nat × Rat)) :
    sumFst ((n, t) :: l) = (n : Rat) + sumFst l := by
  simp [sumFst]

/-- `time_for_ordering` on the two projections of a pair list equals the
suffix-sum form of the cost (with the accumulated prefix time weighted by the
total usage). -/
theorem tfo_pairs (l : List (Nat × Rat)) :
    ∀ acc : Rat, tfo_go acc (l.map Prod.fst) (l.map Prod.snd)
      = acc * sumFst l + sort_cost l := by
  induction l with
  | nil => intro acc; simp [tfo_go, sumFst, sort_cost]
  | cons p l ih =>
    intro acc
    obtain ⟨n, t⟩ := p
    simp only [List.map_cons]
    show (n : Rat) * (acc + t) + tfo_go (acc + t) (l.map Prod.fst) (l.map Prod.snd) = _
    rw [ih (acc + t), sort_cost, sumFst_cons]
    ring

/-- Members of a descending insertion come from the inserted pair or the
list. -/
theorem mem_orderedInsertDesc (p x : Nat × Rat) :
    ∀ l : List (Nat × Rat), x ∈ orderedInsertDesc p l → x = p ∨ x ∈ l := by
  intro l
  induction l with
  | nil =>
    intro h
    rw [orderedInsertDesc] at h
    simpa using h
  | cons q l ih =>
    intro h
    rw [orderedInsertDesc] at h
    split at h
    · rcases List.mem_cons.mp h with h1 | h1
      · exact Or.inl h1
      · exact Or.inr h1
    · rcases List.mem_cons.mp h with h1 | h1
      · exact Or.inr (by simp [h1])
      · rcases ih h1 with h2 | h2
        · exact Or.inl h2
        · exact Or.inr (List.mem_cons_of_mem q h2)

/-- Descending insertion adds the inserted pair's usage to the sum. -/
theorem sumFst_orderedInsertDesc (p : Nat × Rat) :
    ∀ l : List (Nat × Rat), sumFst (orderedInsertDesc p l) = (p.1 : Rat) + sumFst l := by
  intro l
  induction l with
  | nil =>
    rw [orderedInsertDesc]
    obtain ⟨n, t⟩ := p
    simp [sumFst]
  | cons q l ih =>
    rw [orderedInsertDesc]
    split
    · obtain ⟨n, t⟩ := p
      rw [sumFst_cons]
    · obtain ⟨m, u⟩ := q
      rw [sumFst_cons, ih, sumFst_cons]
      ring

/-- Sorting preserves the usage sum. -/
theorem sumFst_sortPairsDesc :
    ∀ l : List (Nat × Rat), sumFst (sortPairsDesc l) = sumFst l := by
  intro l
  induction l with
  | nil => rfl
  | cons p l ih =>
    rw [sortPairsDesc, sumFst_orderedInsertDesc, ih]
    obtain ⟨n, t⟩ := p
    rw [sumFst_cons]

/-- Members of the sorted list come from the original list. -/
theorem mem_sortPairsDesc (x : Nat × Rat) :
    ∀ l : List (Nat × Rat), x ∈ sortPairsDesc l → x ∈ l := by
  intro l
  induction l with
  | nil => intro h; simp [sortPairsDesc] at h
  | cons p l ih =>
    intro h
    rw [sortPairsDesc] at h
    rcases mem_orderedInsertDesc p x (sortPairsDesc l) h with h1 | h1
    · simp [h1]
    · exact List.mem_cons_of_mem p (ih h1)

/-- The exchange step: inserting a pair whose usage dominates the whole list
never lowers the cost relative to placing it in front (ties on usage are
re-ordered by descending time, which weights larger times more heavily). -/
theorem insert_sort_cost (p : Nat × Rat) :
    ∀ L : List (Nat × Rat), (∀ q ∈ L, q.1 ≤ p.1) →
      sort_cost (p :: L) ≤ sort_cost (orderedInsertDesc p L) := by
  intro L
  induction L with
  | nil => intro _; rw [orderedInsertDesc]
  | cons q L ih =>
    intro hle
    rw [orderedInsertDesc]
    by_cases hpg : pairGeB p q = true
    · rw [if_pos hpg]
    · rw [if_neg hpg]
      have hq1 : q.1 ≤ p.1 := hle q (List.mem_cons_self q L)
      simp only [pairGeB, Bool.or_eq_true, Bool.and_eq_true, decide_eq_true_eq,
        not_or, not_and, not_lt, not_le] at hpg
      obtain ⟨hle2, himp⟩ := hpg
      have heq : p.1 = q.1 := le_antisymm hle2 hq1
      have hlt : p.2 < q.2 := himp heq
      have hIH := ih (fun r hr => hle r (List.mem_cons_of_mem q hr))
      have hins := sumFst_orderedInsertDesc p L
      have expand1 : sort_cost (p :: q :: L)
          = p.2 * ((p.1 : Rat) + ((q.1 : Rat) + sumFst L))
            + (q.2 * ((q.1 : Rat) + sumFst L) + sort_cost L) := by
        simp only [sort_cost]
        rw [show sumFst (q :: L) = (q.1 : Rat) + sumFst L from by
          obtain ⟨m, u⟩ := q; rw [sumFst_cons]]
      have expand2 : sort_cost (q :: orderedInsertDesc p L)
          = q.2 * ((q.1 : Rat) + ((p.1 : Rat) + sumFst L))
            + sort_cost (orderedInsertDesc p L) := by
        simp only [sort_cost]
        rw [hins]
      have hIH2 : p.2 * ((p.1 : Rat) + sumFst L) + sort_cost L
          ≤ sort_cost (orderedInsertDesc p L) := by
        refine le_trans (le_of_eq ?_) hIH
        simp only [sort_cost]
      have heqQ : (p.1 : Rat) = (q.1 : Rat) := by exact_mod_cast heq
      have key : (0 : Rat) ≤ (p.1 : Rat) * (q.2 - p.2) :=
        mul_nonneg (by positivity) (by linarith)
      rw [expand1, expand2, ← heqQ]
      nlinarith [hIH2, key]

/-- When the pairs are already in non-increasing usage order, the
descending-usage re-sort never lowers the cost. -/
theorem sort_cost_le :
    ∀ l : List (Nat × Rat), List.Pairwise (fun a b => b.1 ≤ a.1) l →
      sort_cost l ≤ sort_cost (sortPairsDesc l) := by
  intro l
  induction l with
  | nil => intro _; exact le_refl _
  | cons p l ih =>
    intro hpw
    rcases List.pairwise_cons.mp hpw with ⟨hp, hl⟩
    have h1 : sort_cost (p :: l) ≤ sort_cost (p :: sortPairsDesc l) := by
      obtain ⟨n, t⟩ := p
      simp only [sort_cost, sumFst_sortPairsDesc]
      exact add_le_add_left (ih hl) _
    have h2 : sort_cost (p :: sortPairsDesc l)
        ≤ sort_cost (orderedInsertDesc p (sortPairsDesc l)) :=
      insert_sort_cost p (sortPairsDesc l)
        (fun q hq => hp q (mem_sortPairsDesc q l hq))
    rw [sortPairsDesc]
    exact le_trans h1 h2

/-- Counterexample for claim C4: at usage counts `[1, 100]` and average times
`[10, 1]` the profiler's reordering-savings value is `-999`, not positive:
the code returns the cost of the descending-usage ordering minus the cost of
the recorded ordering, which is negative exactly when reordering would
help. -/
theorem claim_C4_counterexample :
    naive_timing_improvement [1, 100] [10, 1] = -999 ∧
    ¬(0 < naive_timing_improvement [1, 100] [10, 1]) := by
  have hval : naive_timing_improvement [1, 100] [10, 1] = -999 := by
    norm_num [naive_timing_improvement, time_for_ordering, tfo_go, sortPairsDesc,
      orderedInsertDesc, pairGeB, List.zip]
  refine ⟨hval, ?_⟩
  rw [hval]
  norm_num

/-- Claim C4 as amended: the value computed by `naive_timing_improvement` is
the reordered cost minus the recorded cost, so it is `≥ 0` whenever the
alternatives are already in descending-usage order, and it is negative (not
positive) in the constructed low-usage-slow-before-high-usage-fast case
`[1, 100]` with times `[10, 1]`. -/
theorem claim_C4 :
    (∀ (u : List Nat) (a : List Rat), u ≠ [] → u.length = a.length →
      List.Sorted (· ≥ ·) u → 0 ≤ naive_timing_improvement u a) ∧
    naive_timing_improvement [1, 100] [10, 1] < 0 := by
  constructor
  · intro u a hne hlen hsort
    have hzfst : (u.zip a).map Prod.fst = u := List.map_fst_zip u a (le_of_eq hlen)
    have hzsnd : (u.zip a).map Prod.snd = a := List.map_snd_zip u a (le_of_eq hlen.symm)
    have h1 : time_for_ordering u a = sort_cost (u.zip a) := by
      have hz := tfo_pairs (u.zip a) 0
      rw [hzfst, hzsnd] at hz
      rw [time_for_ordering, hz]
      ring
    have h2 : time_for_ordering ((sortPairsDesc (u.zip a)).map Prod.fst)
        ((sortPairsDesc (u.zip a)).map Prod.snd)
        = sort_cost (sortPairsDesc (u.zip a)) := by
      rw [time_for_ordering, tfo_pairs]
      ring
    have hpw : List.Pairwise (fun p q : Nat × Rat => q.1 ≤ p.1) (u.zip a) := by
      have hs : List.Pairwise (· ≥ ·) ((u.zip a).map Prod.fst) := by
        rw [hzfst]; exact hsort
      exact (List.pairwise_map).mp hs
    have hle := sort_cost_le (u.zip a) hpw
    show 0 ≤ time_for_ordering ((sortPairsDesc (u.zip a)).map Prod.fst)
      ((sortPairsDesc (u.zip a)).map Prod.snd) - time_for_ordering u a
    rw [h1, h2]
    linarith
  · have hval : naive_timing_improvement [1, 100] [10, 1] = -999 := by
      norm_num [naive_timing_improvement, time_for_ordering, tfo_go, sortPairsDesc,
        orderedInsertDesc, pairGeB, List.zip]
    rw [hval]
    norm_num

/-- Witness for the amended claim C4 on the descending-usage stats `[5, 3]`
with times `[1, 2]`. -/
theorem claim_C4_witness :
    ([5, 3] : List Nat) ≠ [] ∧ ([5, 3] : List Nat).length = ([1, 2] : List Rat).length ∧
    List.Sorted (· ≥ ·) ([5, 3] : List Nat) ∧
    0 ≤ naive_timing_improvement [5, 3] [1, 2] :=
  ⟨by simp, by simp, by simp, claim_C4.1 [5, 3] [1, 2] (by simp) (by simp) (by simp)⟩

end Coconut
